import Mathlib

/-!
Verification of the streaming chat client (Angular + Ollama).

The embedded code is `ChatComponent` in `src/app/app.config.ts`:

* `streamGenerate` opens a POST to `/api/generate` with
  `\x7bmodel, prompt, stream: true\x7d`, then reads the chunked response body,
  accumulating decoded text in `buffer` and repeatedly stripping the prefix
  up to the first newline.  Each stripped line is trimmed; non-empty lines
  are passed to `JSON.parse`; the `response` property of the result is pushed
  to the observer; a truthy `done` property completes the sequence and
  returns.  A `JSON.parse` exception escapes the async function and is routed
  by `.catch` to `observer.error`.
* `sendMessage` trims the prompt, returns on empty input, pushes a user
  bubble and an empty bot bubble, and subscribes to `streamGenerate`,
  appending each fragment to the bot bubble's `text` and overwriting `text`
  with an error marker on error.

Machine/JS semantics are embedded explicitly: parsed JSON values are a `Json`
inductive, JS property access returns `Option Json` (`none` = `undefined`),
JS truthiness and string coercion are spelled out, and the RxJS subscriber
(which silently drops signals after unsubscribe and which `streamGenerate`
never hands a teardown) is a small state machine.  `JSON.parse` itself is a
host-platform primitive, so decoder theorems quantify over an arbitrary
`parse : List Char → Option Json` (`none` = the call throws); concrete
witnesses use the table `parseDemo`.
-/

namespace OllamaChat

/-- JSON values as produced by `JSON.parse` (numbers restricted to the
integers that appear on this wire protocol). -/
inductive Json where
  | null : Json
  | bool : Bool → Json
  | num : Int → Json
  | str : String → Json
  | arr : List Json → Json
  | obj : List (String × Json) → Json

/-- JS property access `j[k]` on a parsed value: `none` models `undefined`.
`JSON.parse` keeps the last duplicate key, hence the reversed lookup. -/
def Json.getField (j : Json) (k : String) : Option Json :=
  match j with
  | .obj fields => fields.reverse.lookup k
  | _ => none

/-- JS truthiness of a possibly-`undefined` value, as used by `if (chunk.done)`. -/
def jsTruthy : Option Json → Bool
  | none => false
  | some .null => false
  | some (.bool b) => b
  | some (.num n) => n != 0
  | some (.str s) => s ≠ ""
  | some (.arr _) => true
  | some (.obj _) => true

mutual
/-- JS string coercion `String(j)` of a parsed JSON value. -/
def Json.toJsString : Json → String
  | .null => "null"
  | .bool b => cond b "true" "false"
  | .num n => toString n
  | .str s => s
  | .arr xs => Json.joinElems xs
  | .obj _ => "[object Object]"

/-- Array-to-string: elements joined by commas, `null` elements blank. -/
def Json.joinElems : List Json → String
  | [] => ""
  | [.null] => ""
  | [j] => Json.toJsString j
  | .null :: rest => "," ++ Json.joinElems rest
  | j :: rest => Json.toJsString j ++ "," ++ Json.joinElems rest
end

/-- JS string coercion of a possibly-`undefined` value (`'' + chunk`). -/
def jsToString : Option Json → String
  | none => "undefined"
  | some j => j.toJsString

/-- JS `String.prototype.trim` on the decoded line (over the whitespace
alphabet this protocol uses). -/
def trimChars (s : List Char) : List Char :=
  ((s.dropWhile Char.isWhitespace).reverse.dropWhile Char.isWhitespace).reverse

/-- JS `String.prototype.trim` on a whole string (the prompt), the same
operation `trimChars` performs on a decoded line. -/
def trimString (s : String) : String :=
  ⟨trimChars s.data⟩

/-- Segments of the buffer as cut by `buffer.indexOf('\n')` /
`buffer.slice`: `n` newlines yield `n + 1` segments, the last being the
text after the final newline (the leftover buffer). -/
def splitLines : List Char → List (List Char)
  | [] => [[]]
  | c :: rest =>
    if c = '\n' then [] :: splitLines rest
    else
      match splitLines rest with
      | [] => [[c]]
      | l :: ls => (c :: l) :: ls

/-- One call made by `streamGenerate`'s inner loop on the `observer`. -/
inductive PAct where
  | next : Option Json → PAct
  | complete : PAct
  | error : PAct

/-- The inner `while ((idx = buffer.indexOf('\n')) >= 0)` loop of
`streamGenerate`, one recursive step per stripped line, acting on the
buffer's segments (`splitLines`): the observer calls made, and `some rest`
(the leftover buffer) if the loop ran dry, or `none` if the stream
terminated (a truthy `done`, or a `JSON.parse` throw routed to
`observer.error`). -/
def drainSegs (parse : List Char → Option Json) : List (List Char) → List PAct × Option (List Char)
  | [] => ([], some [])
  | [leftover] => ([], some leftover)
  | rawLine :: seg :: rest =>
    if trimChars rawLine = [] then drainSegs parse (seg :: rest)
    else
      match parse (trimChars rawLine) with
      | none => ([PAct.error], none)
      | some j =>
        if jsTruthy (j.getField "done") then
          ([PAct.next (j.getField "response"), PAct.complete], none)
        else
          (PAct.next (j.getField "response") :: (drainSegs parse (seg :: rest)).1,
           (drainSegs parse (seg :: rest)).2)

/-- Drain every complete line currently in the buffer, exactly as the inner
loop of `streamGenerate` does. -/
def drainBuffer (parse : List Char → Option Json) (buffer : List Char) :
    List PAct × Option (List Char) :=
  drainSegs parse (splitLines buffer)

/-- Result of `streamGenerate`'s read loop: the observer calls in order, and
how many data chunks `reader.read()` handed the loop before it stopped. -/
structure RunResult where
  acts : List PAct
  chunksRead : Nat

/-- The outer `while (true)` read loop of `streamGenerate`: decode a chunk
into the buffer, drain complete lines, stop on termination; when the reader
reports `done`, complete (any leftover buffer is discarded). -/
def runStream (parse : List Char → Option Json) :
    List (List Char) → List Char → RunResult
  | [], _ => ⟨[PAct.complete], 0⟩
  | c :: cs, buffer =>
    match drainBuffer parse (buffer ++ c) with
    | (acts, some rest) =>
      let r := runStream parse cs rest
      ⟨acts ++ r.acts, r.chunksRead + 1⟩
    | (acts, none) => ⟨acts, 1⟩

/-- The request body `\x7bmodel, prompt, stream: true\x7d` of the `fetch`. -/
structure RequestBody where
  model : String
  prompt : String
  stream : Bool

/-- What subscribing to the Observable returned by `streamGenerate` does:
the `fetch` issued immediately (no validation of any kind precedes it), and
the observer trace produced from the response chunks. -/
structure GenObservable where
  request : RequestBody
  trace : (List Char → Option Json) → List (List Char) → RunResult

/-- The `streamGenerate(prompt, model = 'gemma:2b')` method; callers that
rely on the default model pass `"gemma:2b"` explicitly here. -/
def streamGenerate (prompt : String) (model : String) : GenObservable :=
  ⟨⟨model, prompt, true⟩, fun parse chunks => runStream parse chunks []⟩

/-- The `from` field of a chat `Message` (`'user' | 'bot'`). -/
inductive Origin where
  | user : Origin
  | bot : Origin
deriving DecidableEq

/-- The `Message` interface: `from`, optional `text`, optional `loading`. -/
structure Message where
  from_ : Origin
  text : Option String
  loading : Option Bool
deriving DecidableEq

/-- What one call to `sendMessage` leaves behind: the messages array, the
captured `botIndex`, and the subscribed stream (`none` when the trimmed
prompt was empty: no push, no network). -/
structure SendOutcome where
  messages : List Message
  botIndex : Option Nat
  subscribed : Option GenObservable

/-- The `sendMessage(prompt)` method: trim; return on empty; push the user
bubble and the empty bot bubble (`botIndex` = value of `push` minus one);
subscribe to `streamGenerate(text)`. -/
def sendMessage (msgs : List Message) (prompt : String) : SendOutcome :=
  if trimString prompt = "" then ⟨msgs, none, none⟩
  else
    ⟨msgs ++ [⟨Origin.user, some (trimString prompt), none⟩, ⟨Origin.bot, some "", none⟩],
     some (msgs.length + 1),
     some (streamGenerate (trimString prompt) "gemma:2b")⟩

/-- The subscriber's `next` handler:
`this.messages[botIndex].text += chunk`.  On the streaming path `text` was
initialised to `''`, so JS `+` is string concatenation with coercion of the
fragment (the `undefined` fallback spells out `undefined + chunk` for
completeness). -/
def onFragment (msgs : List Message) (i : Nat) (chunk : Option Json) : List Message :=
  match msgs.get? i with
  | none => msgs
  | some m => msgs.set i { m with text := some ((m.text.getD "undefined") ++ jsToString chunk) }

/-- The subscriber's `error` handler:
`this.messages[botIndex].text = '⚠️ ' + err.message` — an assignment that
overwrites whatever had streamed into the bubble. -/
def onStreamError (msgs : List Message) (i : Nat) (errMessage : String) : List Message :=
  match msgs.get? i with
  | none => msgs
  | some m => msgs.set i { m with text := some ("⚠️ " ++ errMessage) }

/-- Dispatch one delivered observer signal to the handlers `sendMessage`
registered (there is no `complete` handler). -/
def applyAct (i : Nat) (errMessage : String) (msgs : List Message) : PAct → List Message
  | PAct.next v => onFragment msgs i v
  | PAct.complete => msgs
  | PAct.error => onStreamError msgs i errMessage

/-- The terminal signal a subscriber saw, if any. -/
inductive Terminal where
  | completed : Terminal
  | errored : Terminal
deriving DecidableEq

/-- An RxJS subscriber: once `closed` (by a terminal signal or by
unsubscribing) every further `next`/`complete`/`error` is silently dropped. -/
structure SubState where
  closed : Bool
  fragmentsSeen : List (Option Json)
  terminal : Option Terminal

/-- Deliver one producer signal to the subscriber. -/
def stepSub (s : SubState) (a : PAct) : SubState :=
  if s.closed then s
  else
    match a with
    | PAct.next v => { s with fragmentsSeen := s.fragmentsSeen ++ [v] }
    | PAct.complete => { s with closed := true, terminal := some Terminal.completed }
    | PAct.error => { s with closed := true, terminal := some Terminal.errored }

/-- Run the producer's signals against a subscriber that unsubscribes as
soon as it has received `cancelAfter` fragments.  `streamGenerate` returns
no teardown from its subscribe function, so unsubscribing only closes the
subscriber — the producer's signal list is unaffected. -/
def runSub (cancelAfter : Option Nat) : List PAct → SubState → SubState
  | [], s => s
  | a :: rest, s =>
    runSub cancelAfter rest
      (stepSub
        (if cancelAfter = some s.fragmentsSeen.length then { s with closed := true } else s) a)

/-- The `response` fragments handed to `observer.next`, in order. -/
def emittedFragments (acts : List PAct) : List (Option Json) :=
  acts.filterMap fun a =>
    match a with
    | PAct.next v => some v
    | _ => none

/-- A wire record of the protocol: one `response` string and one `done` flag. -/
structure StreamRecord where
  response : String
  done : Bool

/-- Records up to and including the first terminal one (all of them when no
record is terminal). -/
def takeUntilDone : List StreamRecord → List StreamRecord
  | [] => []
  | r :: rs => if r.done then [r] else r :: takeUntilDone rs

/-- Newline-join of serialized record lines, each line newline-terminated. -/
def encodeLines : List (List Char) → List Char
  | [] => []
  | l :: ls => l ++ '\n' :: encodeLines ls

/-- The line `l` is a serialization of the record `r` under `parse`: a single
line (no embedded newline), non-blank, parsed to a value whose `response`
is `r.response` and whose `done` is truthy exactly when `r.done`. -/
def lineMatches (parse : List Char → Option Json) (l : List Char) (r : StreamRecord) : Prop :=
  '\n' ∉ l ∧ trimChars l ≠ [] ∧
    ∃ j, parse (trimChars l) = some j ∧
      j.getField "response" = some (Json.str r.response) ∧
      jsTruthy (j.getField "done") = r.done

/-- A serialized record line carrying fragment `Why`, not terminal. -/
def lineWhy : List Char := "\x7b\"response\":\"Why\",\"done\":false\x7d".toList

/-- A serialized record line carrying fragment ` yet.`, terminal. -/
def lineYet : List Char := "\x7b\"response\":\" yet.\",\"done\":true\x7d".toList

/-- A serialized record line with no `response` field at all. -/
def lineNoResp : List Char := "\x7b\"done\":false\x7d".toList

/-- The parsed value of `lineWhy`. -/
def jWhy : Json := Json.obj [("response", Json.str "Why"), ("done", Json.bool false)]

/-- The parsed value of `lineYet`. -/
def jYet : Json := Json.obj [("response", Json.str " yet."), ("done", Json.bool true)]

/-- The parsed value of `lineNoResp`. -/
def jNoResp : Json := Json.obj [("done", Json.bool false)]

/-- A concrete stand-in for `JSON.parse` covering the record lines used in
the closed witnesses and counterexamples; everything else throws (`none`),
as `JSON.parse` does on `not json`. -/
def parseDemo (line : List Char) : Option Json :=
  if line = lineWhy then some jWhy
  else if line = lineYet then some jYet
  else if line = lineNoResp then some jNoResp
  else none

/-- The `Why` record paired with its line, as a one-record stream prefix. -/
def demoNodoneRecords : List (List Char × StreamRecord) :=
  [(lineWhy, ⟨"Why", false⟩)]

/-- The two-record demo stream with its terminal record. -/
def demoRecords : List (List Char × StreamRecord) :=
  [(lineWhy, ⟨"Why", false⟩), (lineYet, ⟨" yet.", true⟩)]

/-- A two-chunk partition of the demo stream that cuts the first record in
the middle of its `done` key. -/
def demoChunks : List (List Char) :=
  ["\x7b\"response\":\"Why\",\"do".toList,
   "ne\":false\x7d\n\x7b\"response\":\" yet.\",\"done\":true\x7d\n".toList]

/-- The observer calls of the read loop when the whole response text arrives
as one chunk. -/
def runSingleActs (parse : List Char → Option Json) (text : List Char) : List PAct :=
  match drainBuffer parse text with
  | (acts, some _) => acts ++ [PAct.complete]
  | (acts, none) => acts

/-- Modelled from the spec: the per-line record processing of the decoding
algorithm of section 4.1, applied to a given list of lines — trim, skip blank
lines, a parse failure is fatal for the whole sequence, emit the `response`
fragment, a truthy `done` completes; after the last line the sequence
completes (stream end is implicit completion). -/
def processLines (parse : List Char → Option Json) : List (List Char) → List PAct
  | [] => [PAct.complete]
  | l :: ls =>
    if trimChars l = [] then processLines parse ls
    else
      match parse (trimChars l) with
      | none => [PAct.error]
      | some j =>
        if jsTruthy (j.getField "done") then
          [PAct.next (j.getField "response"), PAct.complete]
        else
          PAct.next (j.getField "response") :: processLines parse ls

/-- Modelled from the spec: the naive reference of the chunk-boundary claim —
"splitting the fully concatenated text on newlines and processing each line
in order". -/
def naiveRun (parse : List Char → Option Json) (text : List Char) : List PAct :=
  processLines parse (splitLines text)

/-- Whether a text ends with the newline character. -/
def endsWithNewline : List Char → Bool
  | [] => false
  | [c] => c == '\n'
  | _ :: c :: rest => endsWithNewline (c :: rest)

/-- The observer calls the read loop makes on a stream of the given records
(used to state the concatenation property): `response` fragments in order,
stopping right after the first record whose `done` is set. -/
def expectedActs : List StreamRecord → List PAct
  | [] => []
  | r :: rs =>
    if r.done then [PAct.next (some (Json.str r.response)), PAct.complete]
    else PAct.next (some (Json.str r.response)) :: expectedActs rs

/-- The loop's buffer outcome on a stream of the given records: terminated
(`none`) as soon as some record has `done` set, else an empty leftover. -/
def expectedSt : List StreamRecord → Option (List Char)
  | [] => some []
  | r :: rs => if r.done then none else expectedSt rs

/-- Boolean prefix test on character lists (used to state that streamed
content does not survive error handling). -/
def listStartsWith : List Char → List Char → Bool
  | [], _ => true
  | _ :: _, [] => false
  | p :: ps, c :: cs => p == c && listStartsWith ps cs

/-- A conversation mid-stream: `sendMessage [] "hi"` ran and one fragment
has been applied to the bot bubble, whose stream has not terminated. -/
def c2Mid : List Message :=
  onFragment (sendMessage [] "hi").messages 1 (some (Json.str "par"))

/-- The log after a stream that delivered the fragment `Why did` and then
errored: the error handler runs last. -/
def c3Messages : List Message :=
  onStreamError
    (onFragment (sendMessage [] "Tell me a joke.").messages 1 (some (Json.str "Why did")))
    1 "Http failure"

/-- One chunk holding a good record line followed by a line that is not
JSON. -/
def c5Chunk : List Char := lineWhy ++ '\n' :: "not json\n".toList

/-- The full pipeline on `c5Chunk`: submit, then apply every delivered
signal to the log (the parse failure surfaces as the error signal). -/
def c5Messages : List Message :=
  ((runStream parseDemo [c5Chunk] []).acts).foldl
    (applyAct 1 "Unexpected token") (sendMessage [] "Tell me a joke.").messages

/-- One chunk holding a single parseable record that has no `response`
field. -/
def c7Chunk : List Char := lineNoResp ++ ['\n']

/-- A complete record line that arrives without a trailing newline. -/
def c9Line : List Char := lineYet

/-! ### Buffer segmentation lemmas -/

theorem splitLines_ne_nil (s : List Char) : splitLines s ≠ [] := by
  cases s with
  | nil => simp [splitLines]
  | cons c rest =>
    simp only [splitLines]
    split
    · simp
    · cases h : splitLines rest with
      | nil => simp
      | cons l ls => simp

theorem splitLines_of_no_newline {s : List Char} (h : '\n' ∉ s) : splitLines s = [s] := by
  induction s with
  | nil => rfl
  | cons c rest ih =>
    have hc : ¬ c = '\n' := fun hc => h (by simp [hc])
    have hrest : '\n' ∉ rest := fun hm => h (by simp [hm])
    simp only [splitLines, if_neg hc, ih hrest]

theorem splitLines_append_cons {l : List Char} (r : List Char) (hl : '\n' ∉ l) :
    splitLines (l ++ '\n' :: r) = l :: splitLines r := by
  induction l with
  | nil => simp [splitLines]
  | cons x xs ih =>
    have hx : ¬ x = '\n' := fun hx => hl (by simp [hx])
    have hxs : '\n' ∉ xs := fun hm => hl (by simp [hm])
    simp only [List.cons_append, splitLines, if_neg hx, List.append_eq, ih hxs]

theorem firstNewlineDecomp {b : List Char} (h : '\n' ∈ b) :
    ∃ l r, b = l ++ '\n' :: r ∧ '\n' ∉ l := by
  induction b with
  | nil => cases h
  | cons x xs ih =>
    by_cases hx : x = '\n'
    · exact ⟨[], xs, by rw [hx]; rfl, by simp⟩
    · have hmem : '\n' ∈ xs := by
        rcases List.mem_cons.mp h with h1 | h1
        · exact absurd h1.symm hx
        · exact h1
      obtain ⟨l, r, rfl, hl⟩ := ih hmem
      exact ⟨x :: l, r, rfl, by
        intro hm
        rcases List.mem_cons.mp hm with h1 | h1
        · exact hx h1.symm
        · exact hl h1⟩

/-! ### Equations for the line-stripping loop -/

theorem drainBuffer_no_newline (parse : List Char → Option Json) {b : List Char}
    (h : '\n' ∉ b) : drainBuffer parse b = ([], some b) := by
  unfold drainBuffer
  rw [splitLines_of_no_newline h]
  rfl

theorem drainBuffer_cons (parse : List Char → Option Json) (l r : List Char)
    (hl : '\n' ∉ l) :
    drainBuffer parse (l ++ '\n' :: r) =
      if trimChars l = [] then drainBuffer parse r
      else
        match parse (trimChars l) with
        | none => ([PAct.error], none)
        | some j =>
          if jsTruthy (j.getField "done") then
            ([PAct.next (j.getField "response"), PAct.complete], none)
          else
            (PAct.next (j.getField "response") :: (drainBuffer parse r).1,
             (drainBuffer parse r).2) := by
  unfold drainBuffer
  rw [splitLines_append_cons r hl]
  obtain ⟨seg, rest, hsr⟩ := List.exists_cons_of_ne_nil (splitLines_ne_nil r)
  rw [hsr]
  rfl

theorem drainBuffer_skip (parse : List Char → Option Json) (l r : List Char)
    (hl : '\n' ∉ l) (ht : trimChars l = []) :
    drainBuffer parse (l ++ '\n' :: r) = drainBuffer parse r := by
  rw [drainBuffer_cons parse l r hl, if_pos ht]

theorem drainBuffer_bad (parse : List Char → Option Json) (l r : List Char)
    (hl : '\n' ∉ l) (ht : trimChars l ≠ []) (hp : parse (trimChars l) = none) :
    drainBuffer parse (l ++ '\n' :: r) = ([PAct.error], none) := by
  rw [drainBuffer_cons parse l r hl, if_neg ht, hp]

theorem drainBuffer_done (parse : List Char → Option Json) (l r : List Char) {j : Json}
    (hl : '\n' ∉ l) (ht : trimChars l ≠ []) (hp : parse (trimChars l) = some j)
    (hd : jsTruthy (j.getField "done") = true) :
    drainBuffer parse (l ++ '\n' :: r) =
      ([PAct.next (j.getField "response"), PAct.complete], none) := by
  rw [drainBuffer_cons parse l r hl, if_neg ht, hp]
  simp [hd]

theorem drainBuffer_cont (parse : List Char → Option Json) (l r : List Char) {j : Json}
    (hl : '\n' ∉ l) (ht : trimChars l ≠ []) (hp : parse (trimChars l) = some j)
    (hd : jsTruthy (j.getField "done") = false) :
    drainBuffer parse (l ++ '\n' :: r) =
      (PAct.next (j.getField "response") :: (drainBuffer parse r).1,
       (drainBuffer parse r).2) := by
  rw [drainBuffer_cons parse l r hl, if_neg ht, hp]
  simp [hd]

/-! ### Draining a buffer extended on the right -/

theorem drainBuffer_append_aux (parse : List Char → Option Json) (c : List Char) :
    ∀ n b, b.length ≤ n →
      (∀ acts rest, drainBuffer parse b = (acts, some rest) →
        drainBuffer parse (b ++ c)
          = (acts ++ (drainBuffer parse (rest ++ c)).1, (drainBuffer parse (rest ++ c)).2)) ∧
      (∀ acts, drainBuffer parse b = (acts, none) → drainBuffer parse (b ++ c) = (acts, none)) := by
  intro n
  induction n with
  | zero =>
    intro b hb
    have hbnil : b = [] := List.eq_nil_of_length_eq_zero (Nat.le_zero.mp hb)
    subst hbnil
    rw [drainBuffer_no_newline parse (by simp)]
    constructor
    · intro acts rest h
      injection h with h1 h2
      injection h2 with h2
      subst h1; subst h2
      simp
    · intro acts h
      injection h with h1 h2
      exact absurd h2 (by simp)
  | succ n ih =>
    intro b hb
    by_cases hnl : '\n' ∈ b
    · obtain ⟨l, r, rfl, hl⟩ := firstNewlineDecomp hnl
      have hr : r.length ≤ n := by
        have hlen : (l ++ '\n' :: r).length = l.length + r.length + 1 := by
          simp [List.length_append]
          omega
        omega
      have hassoc : (l ++ '\n' :: r) ++ c = l ++ '\n' :: (r ++ c) := by simp
      by_cases ht : trimChars l = []
      · rw [drainBuffer_skip parse l r hl ht, hassoc,
          drainBuffer_skip parse l (r ++ c) hl ht]
        exact ih r hr
      · cases hp : parse (trimChars l) with
        | none =>
          rw [drainBuffer_bad parse l r hl ht hp, hassoc,
            drainBuffer_bad parse l (r ++ c) hl ht hp]
          constructor
          · intro acts rest h
            exact absurd h (by simp)
          · intro acts h
            injection h with h1 h2
            subst h1
            rfl
        | some j =>
          cases hd : jsTruthy (j.getField "done") with
          | true =>
            rw [drainBuffer_done parse l r hl ht hp hd, hassoc,
              drainBuffer_done parse l (r ++ c) hl ht hp hd]
            constructor
            · intro acts rest h
              exact absurd h (by simp)
            · intro acts h
              injection h with h1 h2
              subst h1
              rfl
          | false =>
            rw [drainBuffer_cont parse l r hl ht hp hd, hassoc,
              drainBuffer_cont parse l (r ++ c) hl ht hp hd]
            obtain ⟨ihs, ihn⟩ := ih r hr
            constructor
            · intro acts rest h
              cases hA : drainBuffer parse r with
              | mk ar st =>
                rw [hA] at h
                cases st with
                | none => exact absurd h (by simp)
                | some rest0 =>
                  injection h with h1 h2
                  injection h2 with h2
                  subst h1; subst h2
                  rw [ihs ar rest0 hA]
                  simp
            · intro acts h
              cases hA : drainBuffer parse r with
              | mk ar st =>
                rw [hA] at h
                cases st with
                | some rest0 => exact absurd h (by simp)
                | none =>
                  injection h with h1 h2
                  subst h1
                  rw [ihn ar hA]
    · rw [drainBuffer_no_newline parse hnl]
      constructor
      · intro acts rest h
        injection h with h1 h2
        injection h2 with h2
        subst h1; subst h2
        simp
      · intro acts h
        injection h with h1 h2
        exact absurd h2 (by simp)

theorem drainBuffer_append_some (parse : List Char → Option Json) (c : List Char)
    {b : List Char} {acts : List PAct} {rest : List Char}
    (h : drainBuffer parse b = (acts, some rest)) :
    drainBuffer parse (b ++ c)
      = (acts ++ (drainBuffer parse (rest ++ c)).1, (drainBuffer parse (rest ++ c)).2) :=
  (drainBuffer_append_aux parse c b.length b (Nat.le_refl _)).1 acts rest h

theorem drainBuffer_append_none (parse : List Char → Option Json) (c : List Char)
    {b : List Char} {acts : List PAct} (h : drainBuffer parse b = (acts, none)) :
    drainBuffer parse (b ++ c) = (acts, none) :=
  (drainBuffer_append_aux parse c b.length b (Nat.le_refl _)).2 acts h

theorem drainBuffer_rest_aux (parse : List Char → Option Json) :
    ∀ n b, b.length ≤ n → ∀ acts rest,
      drainBuffer parse b = (acts, some rest) → '\n' ∉ rest := by
  intro n
  induction n with
  | zero =>
    intro b hb acts rest h
    have hbnil : b = [] := List.eq_nil_of_length_eq_zero (Nat.le_zero.mp hb)
    subst hbnil
    rw [drainBuffer_no_newline parse (by simp)] at h
    injection h with h1 h2
    injection h2 with h2
    subst h2
    simp
  | succ n ih =>
    intro b hb acts rest h
    by_cases hnl : '\n' ∈ b
    · obtain ⟨l, r, rfl, hl⟩ := firstNewlineDecomp hnl
      have hr : r.length ≤ n := by
        have hlen : (l ++ '\n' :: r).length = l.length + r.length + 1 := by
          simp [List.length_append]
          omega
        omega
      by_cases ht : trimChars l = []
      · rw [drainBuffer_skip parse l r hl ht] at h
        exact ih r hr acts rest h
      · cases hp : parse (trimChars l) with
        | none =>
          rw [drainBuffer_bad parse l r hl ht hp] at h
          exact absurd h (by simp)
        | some j =>
          cases hd : jsTruthy (j.getField "done") with
          | true =>
            rw [drainBuffer_done parse l r hl ht hp hd] at h
            exact absurd h (by simp)
          | false =>
            rw [drainBuffer_cont parse l r hl ht hp hd] at h
            cases hA : drainBuffer parse r with
            | mk ar st =>
              rw [hA] at h
              cases st with
              | none => exact absurd h (by simp)
              | some rest0 =>
                injection h with h1 h2
                injection h2 with h2
                subst h2
                exact ih r hr ar rest0 hA
    · rw [drainBuffer_no_newline parse hnl] at h
      injection h with h1 h2
      injection h2 with h2
      subst h2
      exact hnl

theorem drainBuffer_rest_no_newline (parse : List Char → Option Json) {b : List Char}
    {acts : List PAct} {rest : List Char} (h : drainBuffer parse b = (acts, some rest)) :
    '\n' ∉ rest :=
  drainBuffer_rest_aux parse b.length b (Nat.le_refl _) acts rest h

/-! ### The read loop versus a single concatenated chunk -/

theorem runStream_single (parse : List Char → Option Json) (text : List Char) :
    (runStream parse [text] []).acts = runSingleActs parse text := by
  unfold runStream runSingleActs
  rw [List.nil_append]
  cases h : drainBuffer parse text with
  | mk acts st =>
    cases st with
    | some rest => rfl
    | none => rfl

theorem runStream_acts_eq_single (parse : List Char → Option Json) :
    ∀ (cs : List (List Char)) (buffer : List Char), '\n' ∉ buffer →
      (runStream parse cs buffer).acts = runSingleActs parse (buffer ++ cs.flatten) := by
  intro cs
  induction cs with
  | nil =>
    intro buffer hb
    rw [List.flatten_nil, List.append_nil]
    unfold runStream runSingleActs
    rw [drainBuffer_no_newline parse hb]
    rfl
  | cons c cs ih =>
    intro buffer hb
    have hflat : buffer ++ (c :: cs).flatten = (buffer ++ c) ++ cs.flatten := by
      rw [List.flatten_cons, List.append_assoc]
    rw [hflat]
    unfold runStream
    cases hd : drainBuffer parse (buffer ++ c) with
    | mk acts st =>
      cases st with
      | some rest =>
        have hrest : '\n' ∉ rest := drainBuffer_rest_no_newline parse hd
        have happ := drainBuffer_append_some parse cs.flatten hd
        show acts ++ (runStream parse cs rest).acts
          = runSingleActs parse ((buffer ++ c) ++ cs.flatten)
        rw [ih rest hrest]
        unfold runSingleActs
        rw [happ]
        cases hD : drainBuffer parse (rest ++ cs.flatten) with
        | mk dacts dst =>
          cases dst with
          | some r2 => simp
          | none => simp
      | none =>
        have happ := drainBuffer_append_none parse cs.flatten hd
        show acts = runSingleActs parse ((buffer ++ c) ++ cs.flatten)
        unfold runSingleActs
        rw [happ]

/-! ### Correspondence with the naive line-splitting reference -/

theorem endsWithNewline_append (l r : List Char) (hr : r ≠ []) :
    endsWithNewline (l ++ r) = endsWithNewline r := by
  induction l with
  | nil => rfl
  | cons x xs ih =>
    have hne : xs ++ r ≠ [] := by
      intro hcontra
      exact hr (List.append_eq_nil.mp hcontra).2
    cases hlr : xs ++ r with
    | nil => exact absurd hlr hne
    | cons y ys =>
      show endsWithNewline (x :: (xs ++ r)) = endsWithNewline r
      rw [hlr]
      show endsWithNewline (y :: ys) = endsWithNewline r
      rw [← hlr, ih]

theorem endsWithNewline_mem {s : List Char} (h : endsWithNewline s = true) : '\n' ∈ s := by
  induction s with
  | nil => exact absurd h (by simp [endsWithNewline])
  | cons x xs ih =>
    cases xs with
    | nil =>
      have hx : x = '\n' := by simpa [endsWithNewline] using h
      simp [hx]
    | cons y ys =>
      have : endsWithNewline (y :: ys) = true := h
      exact List.mem_cons_of_mem x (ih this)

theorem runSingle_eq_naive_aux (parse : List Char → Option Json) :
    ∀ n text, text.length ≤ n → (text = [] ∨ endsWithNewline text = true) →
      runSingleActs parse text = naiveRun parse text := by
  intro n
  induction n with
  | zero =>
    intro text ht _
    have htext : text = [] := List.eq_nil_of_length_eq_zero (Nat.le_zero.mp ht)
    subst htext
    rfl
  | succ n ih =>
    intro text ht hend
    rcases hend with rfl | hew
    · rfl
    · have hmem : '\n' ∈ text := endsWithNewline_mem hew
      obtain ⟨l, r, rfl, hl⟩ := firstNewlineDecomp hmem
      have hr : r.length ≤ n := by
        have hlen : (l ++ '\n' :: r).length = l.length + r.length + 1 := by
          simp [List.length_append]
          omega
        omega
      have hrend : r = [] ∨ endsWithNewline r = true := by
        cases r with
        | nil => exact Or.inl rfl
        | cons x xs =>
          right
          have h1 : endsWithNewline (l ++ '\n' :: x :: xs) = endsWithNewline ('\n' :: x :: xs) :=
            endsWithNewline_append l ('\n' :: x :: xs) (by simp)
          have h2 : endsWithNewline ('\n' :: x :: xs) = endsWithNewline (x :: xs) := rfl
          rw [h1, h2] at hew
          exact hew
      have hnaive : naiveRun parse (l ++ '\n' :: r) = processLines parse (l :: splitLines r) := by
        unfold naiveRun
        rw [splitLines_append_cons r hl]
      have hihr := ih r hr hrend
      rw [hnaive]
      by_cases htr : trimChars l = []
      · unfold runSingleActs
        rw [drainBuffer_skip parse l r hl htr]
        unfold runSingleActs at hihr
        rw [hihr]
        show naiveRun parse r = processLines parse (l :: splitLines r)
        simp only [processLines, if_pos htr]
        rfl
      · cases hp : parse (trimChars l) with
        | none =>
          unfold runSingleActs
          rw [drainBuffer_bad parse l r hl htr hp]
          simp only [processLines, if_neg htr, hp]
        | some j =>
          cases hjd : jsTruthy (j.getField "done") with
          | true =>
            unfold runSingleActs
            rw [drainBuffer_done parse l r hl htr hp hjd]
            simp only [processLines, if_neg htr, hp, hjd, if_pos]
          | false =>
            unfold runSingleActs
            rw [drainBuffer_cont parse l r hl htr hp hjd]
            unfold runSingleActs at hihr
            simp only [processLines, if_neg htr, hp, hjd, if_neg]
            cases hA : drainBuffer parse r with
            | mk ar st =>
              rw [hA] at hihr
              cases st with
              | some r2 =>
                show (PAct.next (j.getField "response") :: ar) ++ [PAct.complete]
                  = PAct.next (j.getField "response") :: processLines parse (splitLines r)
                rw [List.cons_append]
                have : ar ++ [PAct.complete] = naiveRun parse r := hihr
                rw [this]
                rfl
              | none =>
                show PAct.next (j.getField "response") :: ar
                  = PAct.next (j.getField "response") :: processLines parse (splitLines r)
                have : ar = naiveRun parse r := hihr
                rw [this]
                rfl

theorem runSingle_eq_naive (parse : List Char → Option Json) {text : List Char}
    (h : text = [] ∨ endsWithNewline text = true) :
    runSingleActs parse text = naiveRun parse text :=
  runSingle_eq_naive_aux parse text.length text (Nat.le_refl _) h

/-- C9 (counterexample): for the single-chunk partition of a byte stream that
carries one complete record but no trailing newline, the incremental decoder
emits no fragment (the line stays in the buffer until the reader reports
done, which discards it), while the naive split-on-newlines reference
processes that final segment and emits its fragment — so the two fragment
sequences differ. -/
theorem partition_equivalence_counterexample :
    emittedFragments (runStream parseDemo [c9Line] []).acts = []
    ∧ emittedFragments (naiveRun parseDemo c9Line) = [some (Json.str " yet.")]
    ∧ ([] : List (Option Json)) ≠ [some (Json.str " yet.")] :=
  ⟨rfl, rfl, fun h => List.noConfusion h⟩

/-- C9 (amended): the incremental decoder is chunk-boundary invariant — every
partition of the text into chunks produces the same observer calls as
processing the whole text as a single chunk — and it agrees with the naive
reference of splitting the concatenated text on newlines and processing each
line in order whenever the concatenated text ends with a newline; the
incremental loop never processes the trailing segment after the last
newline, which the naive reference does process. -/
theorem streaming_chunk_invariant (parse : List Char → Option Json)
    (chunks : List (List Char)) :
    (runStream parse chunks []).acts = (runStream parse [chunks.flatten] []).acts
    ∧ (endsWithNewline chunks.flatten = true →
        (runStream parse chunks []).acts = naiveRun parse chunks.flatten) := by
  have h1 : (runStream parse chunks []).acts = runSingleActs parse chunks.flatten := by
    have h := runStream_acts_eq_single parse chunks [] (by simp)
    simpa using h
  have h2 : (runStream parse [chunks.flatten] []).acts = runSingleActs parse chunks.flatten :=
    runStream_single parse chunks.flatten
  exact ⟨h1.trans h2.symm, fun hew => h1.trans (runSingle_eq_naive parse (Or.inr hew))⟩

/-- C9 (witness): a two-chunk partition that cuts one record in the middle of
its `done` key still yields exactly the naive reference's calls. -/
theorem streaming_chunk_invariant_witness :
    endsWithNewline
      (["\x7b\"response\":\"Why\",\"do".toList,
        "ne\":false\x7d\n\x7b\"response\":\" yet.\",\"done\":true\x7d\n".toList] :
          List (List Char)).flatten = true
    ∧ (runStream parseDemo
        ["\x7b\"response\":\"Why\",\"do".toList,
         "ne\":false\x7d\n\x7b\"response\":\" yet.\",\"done\":true\x7d\n".toList] []).acts
      = naiveRun parseDemo
          (["\x7b\"response\":\"Why\",\"do".toList,
            "ne\":false\x7d\n\x7b\"response\":\" yet.\",\"done\":true\x7d\n".toList] :
              List (List Char)).flatten
    ∧ naiveRun parseDemo
          (["\x7b\"response\":\"Why\",\"do".toList,
            "ne\":false\x7d\n\x7b\"response\":\" yet.\",\"done\":true\x7d\n".toList] :
              List (List Char)).flatten
      = [PAct.next (some (Json.str "Why")), PAct.next (some (Json.str " yet.")), PAct.complete] :=
  ⟨rfl,
   (streaming_chunk_invariant parseDemo
      ["\x7b\"response\":\"Why\",\"do".toList,
       "ne\":false\x7d\n\x7b\"response\":\" yet.\",\"done\":true\x7d\n".toList]).2 rfl,
   rfl⟩

/-! ### Streams of well-formed records -/

theorem drain_encode (parse : List Char → Option Json) :
    ∀ ps : List (List Char × StreamRecord),
      (∀ p ∈ ps, lineMatches parse p.1 p.2) →
      drainBuffer parse (encodeLines (ps.map Prod.fst))
        = (expectedActs (ps.map Prod.snd), expectedSt (ps.map Prod.snd)) := by
  intro ps
  induction ps with
  | nil =>
    intro _
    simpa using drainBuffer_no_newline parse (List.not_mem_nil '\n')
  | cons p ps ih =>
    intro h
    obtain ⟨hl, ht, j, hp, hresp, hdone⟩ := h p (List.mem_cons_self p ps)
    have hrest : ∀ q ∈ ps, lineMatches parse q.1 q.2 :=
      fun q hq => h q (List.mem_cons_of_mem p hq)
    show drainBuffer parse (p.1 ++ '\n' :: encodeLines (ps.map Prod.fst)) = _
    cases hd : p.2.done with
    | true =>
      rw [drainBuffer_done parse p.1 _ hl ht hp (by rw [hdone, hd]), hresp]
      show _ = (expectedActs (p.2 :: ps.map Prod.snd), expectedSt (p.2 :: ps.map Prod.snd))
      simp [expectedActs, expectedSt, hd]
    | false =>
      rw [drainBuffer_cont parse p.1 _ hl ht hp (by rw [hdone, hd]), ih hrest, hresp]
      show _ = (expectedActs (p.2 :: ps.map Prod.snd), expectedSt (p.2 :: ps.map Prod.snd))
      simp [expectedActs, expectedSt, hd]

theorem drain_encode_nodone (parse : List Char → Option Json) :
    ∀ (ps : List (List Char × StreamRecord)) (tail : List Char),
      (∀ p ∈ ps, lineMatches parse p.1 p.2 ∧ p.2.done = false) →
      drainBuffer parse (encodeLines (ps.map Prod.fst) ++ tail)
        = ((ps.map fun p => PAct.next (some (Json.str p.2.response)))
            ++ (drainBuffer parse tail).1,
           (drainBuffer parse tail).2) := by
  intro ps
  induction ps with
  | nil =>
    intro tail _
    simp [encodeLines]
  | cons p ps ih =>
    intro tail h
    obtain ⟨⟨hl, ht, j, hp, hresp, hdone⟩, hdfalse⟩ := h p (List.mem_cons_self p ps)
    have hrest : ∀ q ∈ ps, lineMatches parse q.1 q.2 ∧ q.2.done = false :=
      fun q hq => h q (List.mem_cons_of_mem p hq)
    show drainBuffer parse ((p.1 ++ '\n' :: encodeLines (ps.map Prod.fst)) ++ tail) = _
    have hassoc : (p.1 ++ '\n' :: encodeLines (ps.map Prod.fst)) ++ tail
        = p.1 ++ '\n' :: (encodeLines (ps.map Prod.fst) ++ tail) := by simp
    rw [hassoc, drainBuffer_cont parse p.1 _ hl ht hp (by rw [hdone, hdfalse]),
      ih tail hrest, hresp]
    simp

theorem jsToString_str (s : String) : jsToString (some (Json.str s)) = s := rfl

theorem emittedFragments_append (a b : List PAct) :
    emittedFragments (a ++ b) = emittedFragments a ++ emittedFragments b := by
  simp [emittedFragments, List.filterMap_append]

theorem emitted_expected_join :
    ∀ rs : List StreamRecord,
      (emittedFragments (expectedActs rs)).map jsToString
        = (takeUntilDone rs).map StreamRecord.response := by
  intro rs
  induction rs with
  | nil => rfl
  | cons r rs ih =>
    cases hd : r.done with
    | true => simp [expectedActs, takeUntilDone, emittedFragments, hd, jsToString_str]
    | false =>
      simp only [emittedFragments] at ih
      simp [expectedActs, takeUntilDone, emittedFragments, hd, jsToString_str, ih]

/-- C1: for every well-formed stream of newline-delimited records — under any
partition into chunks — the concatenation of the fragments `streamGenerate`
emits equals the concatenation of the records' `response` fields up to and
including the first record with `done` set (all of them when none is). -/
theorem streamGenerate_concat (parse : List Char → Option Json)
    (ps : List (List Char × StreamRecord)) (chunks : List (List Char))
    (hps : ∀ p ∈ ps, lineMatches parse p.1 p.2)
    (hflat : chunks.flatten = encodeLines (ps.map Prod.fst)) :
    String.join ((emittedFragments (runStream parse chunks []).acts).map jsToString)
      = String.join ((takeUntilDone (ps.map Prod.snd)).map StreamRecord.response) := by
  have h1 : (runStream parse chunks []).acts = runSingleActs parse chunks.flatten := by
    have h := runStream_acts_eq_single parse chunks [] (by simp)
    simpa using h
  rw [h1, hflat]
  unfold runSingleActs
  rw [drain_encode parse ps hps]
  cases hst : expectedSt (ps.map Prod.snd) with
  | some leftover =>
    show String.join ((emittedFragments (expectedActs (ps.map Prod.snd)
        ++ [PAct.complete])).map jsToString) = _
    rw [emittedFragments_append]
    show String.join ((emittedFragments (expectedActs (ps.map Prod.snd)) ++ []).map jsToString) = _
    rw [List.append_nil, emitted_expected_join]
  | none =>
    show String.join ((emittedFragments (expectedActs (ps.map Prod.snd))).map jsToString) = _
    rw [emitted_expected_join]

/-- C6: a record whose `done` flag is truthy terminates the stream: after the
fragments of the preceding records, its own `response` fragment is emitted
and the sequence completes; nothing from the rest of the buffer is parsed or
emitted, and no further chunk is read from the connection. -/
theorem done_record_terminates (parse : List Char → Option Json)
    (ps : List (List Char × StreamRecord)) (l suffix : List Char)
    (cs : List (List Char)) {j : Json}
    (hps : ∀ p ∈ ps, lineMatches parse p.1 p.2 ∧ p.2.done = false)
    (hl : '\n' ∉ l) (ht : trimChars l ≠ [])
    (hp : parse (trimChars l) = some j) (hd : jsTruthy (j.getField "done") = true) :
    runStream parse ((encodeLines (ps.map Prod.fst) ++ (l ++ '\n' :: suffix)) :: cs) []
      = ⟨(ps.map fun p => PAct.next (some (Json.str p.2.response)))
          ++ [PAct.next (j.getField "response"), PAct.complete], 1⟩ := by
  unfold runStream
  rw [List.nil_append]
  have htail := drainBuffer_done parse l suffix hl ht hp hd
  have henc := drain_encode_nodone parse ps (l ++ '\n' :: suffix) hps
  rw [htail] at henc
  rw [henc]

/-- C5 (amended, decoder level): when a line fails to parse after a prefix of
well-formed non-terminal records, the sequence ends in the single error
signal: every earlier record's fragment was emitted, nothing from the
malformed line onwards is emitted, and no further chunk is read. -/
theorem parse_failure_terminal (parse : List Char → Option Json)
    (ps : List (List Char × StreamRecord)) (b suffix : List Char)
    (cs : List (List Char))
    (hps : ∀ p ∈ ps, lineMatches parse p.1 p.2 ∧ p.2.done = false)
    (hb : '\n' ∉ b) (hbt : trimChars b ≠ []) (hbp : parse (trimChars b) = none) :
    runStream parse ((encodeLines (ps.map Prod.fst) ++ (b ++ '\n' :: suffix)) :: cs) []
      = ⟨(ps.map fun p => PAct.next (some (Json.str p.2.response))) ++ [PAct.error], 1⟩ := by
  unfold runStream
  rw [List.nil_append]
  have htail := drainBuffer_bad parse b suffix hb hbt hbp
  have henc := drain_encode_nodone parse ps (b ++ '\n' :: suffix) hps
  rw [htail] at henc
  rw [henc]

/-! ### Shape of the observer trace and the subscriber state machine -/

theorem drainBuffer_shape_aux (parse : List Char → Option Json) :
    ∀ n b, b.length ≤ n → ∀ acts st, drainBuffer parse b = (acts, st) →
      (∀ rest, st = some rest → ∃ vs : List (Option Json), acts = vs.map PAct.next) ∧
      (st = none → ∃ (vs : List (Option Json)) (t : PAct), acts = vs.map PAct.next ++ [t]
        ∧ (t = PAct.complete ∨ t = PAct.error)) := by
  intro n
  induction n with
  | zero =>
    intro b hb acts st h
    have hbnil : b = [] := List.eq_nil_of_length_eq_zero (Nat.le_zero.mp hb)
    subst hbnil
    rw [drainBuffer_no_newline parse (by simp)] at h
    injection h with h1 h2
    subst h1; subst h2
    constructor
    · intro rest _
      exact ⟨[], rfl⟩
    · intro hcontra
      exact absurd hcontra (by simp)
  | succ n ih =>
    intro b hb acts st h
    by_cases hnl : '\n' ∈ b
    · obtain ⟨l, r, rfl, hl⟩ := firstNewlineDecomp hnl
      have hr : r.length ≤ n := by
        have hlen : (l ++ '\n' :: r).length = l.length + r.length + 1 := by
          simp [List.length_append]
          omega
        omega
      by_cases ht : trimChars l = []
      · rw [drainBuffer_skip parse l r hl ht] at h
        exact ih r hr acts st h
      · cases hp : parse (trimChars l) with
        | none =>
          rw [drainBuffer_bad parse l r hl ht hp] at h
          injection h with h1 h2
          subst h1; subst h2
          constructor
          · intro rest hcontra
            exact absurd hcontra (by simp)
          · intro _
            exact ⟨[], PAct.error, rfl, Or.inr rfl⟩
        | some j =>
          cases hd : jsTruthy (j.getField "done") with
          | true =>
            rw [drainBuffer_done parse l r hl ht hp hd] at h
            injection h with h1 h2
            subst h1; subst h2
            constructor
            · intro rest hcontra
              exact absurd hcontra (by simp)
            · intro _
              exact ⟨[j.getField "response"], PAct.complete, rfl, Or.inl rfl⟩
          | false =>
            rw [drainBuffer_cont parse l r hl ht hp hd] at h
            cases hA : drainBuffer parse r with
            | mk ar st0 =>
              rw [hA] at h
              injection h with h1 h2
              subst h1; subst h2
              obtain ⟨ihsome, ihnone⟩ := ih r hr ar st0 hA
              constructor
              · intro rest hst
                obtain ⟨vs, hvs⟩ := ihsome rest hst
                exact ⟨j.getField "response" :: vs, by rw [hvs]; rfl⟩
              · intro hst
                obtain ⟨vs, t, hvs, htc⟩ := ihnone hst
                exact ⟨j.getField "response" :: vs, t, by rw [hvs]; rfl, htc⟩
    · rw [drainBuffer_no_newline parse hnl] at h
      injection h with h1 h2
      subst h1; subst h2
      constructor
      · intro rest _
        exact ⟨[], rfl⟩
      · intro hcontra
        exact absurd hcontra (by simp)

theorem runStream_shape (parse : List Char → Option Json) :
    ∀ (cs : List (List Char)) (buffer : List Char), ∃ (vs : List (Option Json)) (t : PAct),
      (runStream parse cs buffer).acts = vs.map PAct.next ++ [t]
        ∧ (t = PAct.complete ∨ t = PAct.error) := by
  intro cs
  induction cs with
  | nil =>
    intro buffer
    exact ⟨[], PAct.complete, rfl, Or.inl rfl⟩
  | cons c cs ih =>
    intro buffer
    unfold runStream
    cases hd : drainBuffer parse (buffer ++ c) with
    | mk acts st =>
      obtain ⟨hsome, hnone⟩ :=
        drainBuffer_shape_aux parse (buffer ++ c).length (buffer ++ c) (Nat.le_refl _) acts st hd
      cases st with
      | some rest =>
        obtain ⟨vs1, hvs1⟩ := hsome rest rfl
        obtain ⟨vs2, t, hvs2, htc⟩ := ih rest
        refine ⟨vs1 ++ vs2, t, ?_, htc⟩
        show acts ++ (runStream parse cs rest).acts = _
        rw [hvs1, hvs2, List.map_append, List.append_assoc]
      | none =>
        obtain ⟨vs, t, hvs, htc⟩ := hnone rfl
        exact ⟨vs, t, hvs, htc⟩

theorem emittedFragments_map_next (vs : List (Option Json)) :
    emittedFragments (vs.map PAct.next) = vs := by
  induction vs with
  | nil => rfl
  | cons v vs ih =>
    simp only [emittedFragments, List.map_cons, List.filterMap_cons] at ih ⊢
    rw [ih]

theorem emittedFragments_shape (vs : List (Option Json)) (t : PAct)
    (htc : t = PAct.complete ∨ t = PAct.error) :
    emittedFragments (vs.map PAct.next ++ [t]) = vs := by
  rw [emittedFragments_append, emittedFragments_map_next]
  rcases htc with rfl | rfl
  · simp [emittedFragments]
  · simp [emittedFragments]

theorem runSub_closed (cancelAfter : Option Nat) :
    ∀ (acts : List PAct) (s : SubState), s.closed = true →
      runSub cancelAfter acts s = s := by
  intro acts
  induction acts with
  | nil =>
    intro s _
    rfl
  | cons a rest ih =>
    intro s h
    unfold runSub
    have hs' : (if cancelAfter = some s.fragmentsSeen.length
        then { s with closed := true } else s) = s := by
      split
      · cases s with
        | mk c f t =>
          simp only at h
          rw [h]
      · rfl
    rw [hs']
    have hstep : stepSub s a = s := by
      unfold stepSub
      rw [h]
      rfl
    rw [hstep]
    exact ih s h

theorem runSub_cancel_now (cancelRest : List PAct) (a : PAct) (s : SubState) :
    runSub (some s.fragmentsSeen.length) (a :: cancelRest) s = { s with closed := true } := by
  unfold runSub
  rw [if_pos rfl]
  have hstep : stepSub { s with closed := true } a = { s with closed := true } := by
    unfold stepSub
    rfl
  rw [hstep]
  exact runSub_closed _ cancelRest _ rfl

theorem runSub_cancel_take :
    ∀ (vs : List (Option Json)) (t : PAct) (n : Nat) (s : SubState),
      s.closed = false → s.terminal = none → n ≤ vs.length →
      runSub (some (s.fragmentsSeen.length + n)) (vs.map PAct.next ++ [t]) s
        = ⟨true, s.fragmentsSeen ++ vs.take n, none⟩ := by
  intro vs
  induction vs with
  | nil =>
    intro t n s hc ht hn
    have hn0 : n = 0 := Nat.le_zero.mp hn
    subst hn0
    rw [Nat.add_zero]
    have hacts : List.map PAct.next ([] : List (Option Json)) ++ [t] = [t] := rfl
    rw [hacts, runSub_cancel_now [] t s]
    cases s with
    | mk c f tm =>
      simp only at hc ht
      simp [ht]
  | cons v vs ih =>
    intro t n s hc ht hn
    cases n with
    | zero =>
      rw [Nat.add_zero]
      have h := runSub_cancel_now (vs.map PAct.next ++ [t]) (PAct.next v) s
      rw [List.map_cons, List.cons_append]
      rw [h]
      cases s with
      | mk c f tm =>
        simp only at hc ht
        rw [List.take_zero, List.append_nil, ht]
    | succ n =>
      rw [List.map_cons, List.cons_append]
      unfold runSub
      have hne : (some (s.fragmentsSeen.length + (n + 1)) : Option Nat)
          ≠ some s.fragmentsSeen.length := by
        intro hcontra
        injection hcontra with hcontra
        omega
      rw [if_neg hne]
      have hstep : stepSub s (PAct.next v)
          = { s with fragmentsSeen := s.fragmentsSeen ++ [v] } := by
        unfold stepSub
        rw [hc]
        rfl
      rw [hstep]
      have hlen : s.fragmentsSeen.length + (n + 1)
          = ({ s with fragmentsSeen := s.fragmentsSeen ++ [v] } :
              SubState).fragmentsSeen.length + n := by
        simp [List.length_append]
        omega
      rw [hlen]
      have h := ih t n { s with fragmentsSeen := s.fragmentsSeen ++ [v] } hc ht
        (Nat.le_of_succ_le_succ hn)
      rw [h]
      simp [List.append_assoc]

theorem runStream_reads_all (parse : List Char → Option Json) :
    ∀ (cs : List (List Char)) (buffer : List Char),
      '\n' ∉ buffer → (∀ c ∈ cs, '\n' ∉ c) →
      (runStream parse cs buffer).chunksRead = cs.length := by
  intro cs
  induction cs with
  | nil =>
    intro buffer _ _
    rfl
  | cons c cs ih =>
    intro buffer hb hcs
    have hbc : '\n' ∉ buffer ++ c := by
      intro hm
      rcases List.mem_append.mp hm with hm | hm
      · exact hb hm
      · exact hcs c (List.mem_cons_self c cs) hm
    have hrec := ih (buffer ++ c) hbc (fun c' hc' => hcs c' (List.mem_cons_of_mem c hc'))
    unfold runStream
    rw [drainBuffer_no_newline parse hbc]
    show (runStream parse cs (buffer ++ c)).chunksRead + 1 = cs.length + 1
    rw [hrec]

/-! ### Demo streams are well-formed -/

theorem demoRecords_match : ∀ p ∈ demoRecords, lineMatches parseDemo p.1 p.2 := by
  intro p hp
  rcases List.mem_cons.mp hp with rfl | hp
  · exact ⟨by decide, by decide, jWhy, rfl, rfl, rfl⟩
  rcases List.mem_cons.mp hp with rfl | hp
  · exact ⟨by decide, by decide, jYet, rfl, rfl, rfl⟩
  · cases hp

theorem demoNodone_match :
    ∀ p ∈ demoNodoneRecords, lineMatches parseDemo p.1 p.2 ∧ p.2.done = false := by
  intro p hp
  rcases List.mem_cons.mp hp with rfl | hp
  · exact ⟨⟨by decide, by decide, jWhy, rfl, rfl, rfl⟩, rfl⟩
  · cases hp

/-! ### Remaining claims -/

/-- C1 (witness): the two-record demo stream, delivered in a partition that
cuts the first record mid-key, concatenates to `Why yet.`. -/
theorem streamGenerate_concat_witness :
    demoChunks.flatten = encodeLines (demoRecords.map Prod.fst)
    ∧ String.join
        ((emittedFragments (runStream parseDemo demoChunks []).acts).map jsToString)
      = "Why yet." := by
  refine ⟨by decide, ?_⟩
  have h := streamGenerate_concat parseDemo demoRecords demoChunks demoRecords_match (by decide)
  exact h.trans (by decide)

/-- C6 (witness): after the `Why` record, the terminal ` yet.` record emits
its fragment and completes, with trailing buffer bytes and one more pending
chunk left unread. -/
theorem done_record_terminates_witness :
    trimChars lineYet ≠ [] ∧ parseDemo (trimChars lineYet) = some jYet
    ∧ jsTruthy (jYet.getField "done") = true
    ∧ runStream parseDemo
        ((encodeLines (demoNodoneRecords.map Prod.fst) ++ (lineYet ++ '\n' :: "garbage".toList))
          :: ["\x7b\"response\":\"late\",\"done\":false\x7d\n".toList]) []
      = ⟨[PAct.next (some (Json.str "Why")), PAct.next (some (Json.str " yet.")),
          PAct.complete], 1⟩ := by
  refine ⟨by decide, rfl, rfl, ?_⟩
  have h := done_record_terminates parseDemo demoNodoneRecords lineYet "garbage".toList
    ["\x7b\"response\":\"late\",\"done\":false\x7d\n".toList] demoNodone_match
    (by decide) (by decide) rfl rfl
  exact h.trans rfl

/-- C5 (witness): a well-formed `Why` record followed by the line `not json`
yields the `Why` fragment and then the single terminal error; the rest of
the buffer and the pending chunk are never read. -/
theorem parse_failure_terminal_witness :
    parseDemo (trimChars "not json".toList) = none
    ∧ runStream parseDemo
        ((encodeLines (demoNodoneRecords.map Prod.fst)
            ++ ("not json".toList ++ '\n' :: "\x7b\"more\"\x7d".toList))
          :: ["rest".toList]) []
      = ⟨[PAct.next (some (Json.str "Why")), PAct.error], 1⟩ := by
  refine ⟨rfl, ?_⟩
  have h := parse_failure_terminal parseDemo demoNodoneRecords "not json".toList
    "\x7b\"more\"\x7d".toList ["rest".toList] demoNodone_match
    (by decide) (by decide) rfl
  exact h.trans rfl

/-- C5 (counterexample): in the full pipeline the fragment `Why` is emitted
before the malformed line, but after the error handler runs, the bot turn
holds only the error marker — the fragment does not remain applied to the
log (the final text contains no `W` at all). -/
theorem fragments_lost_on_error_counterexample :
    emittedFragments (runStream parseDemo [c5Chunk] []).acts = [some (Json.str "Why")]
    ∧ c5Messages = [⟨Origin.user, some "Tell me a joke.", none⟩,
        ⟨Origin.bot, some "⚠️ Unexpected token", none⟩]
    ∧ "⚠️ Unexpected token".data.contains 'W' = false :=
  ⟨rfl, by decide, rfl⟩

/-- C4 (counterexample): cancellation does not release the reader: a consumer
that cancels before any fragment has nothing delivered, yet the loop still
reads both remaining chunks of the stream, because `streamGenerate` returns
no teardown and never calls `reader.cancel`. -/
theorem cancel_releases_reader_counterexample :
    (runStream parseDemo ["ab".toList, "cd".toList] []).chunksRead = 2
    ∧ runSub (some 0) (runStream parseDemo ["ab".toList, "cd".toList] []).acts
        ⟨false, [], none⟩ = ⟨true, [], none⟩ :=
  ⟨rfl, rfl⟩

/-- C4 (amended): after cancelling at `n` fragments the subscriber has applied
exactly the first `n` fragments and no completion or error signal; but the
underlying reader is not released — on a stream that never completes a line,
the loop reads every chunk regardless of cancellation, since no teardown is
registered. -/
theorem cancellation_no_further_signals :
    (∀ (parse : List Char → Option Json) (cs : List (List Char)) (buffer : List Char) (n : Nat),
      n ≤ (emittedFragments (runStream parse cs buffer).acts).length →
      runSub (some n) (runStream parse cs buffer).acts ⟨false, [], none⟩
        = ⟨true, (emittedFragments (runStream parse cs buffer).acts).take n, none⟩)
    ∧ (∀ (parse : List Char → Option Json) (cs : List (List Char)) (buffer : List Char),
      '\n' ∉ buffer → (∀ c ∈ cs, '\n' ∉ c) →
      (runStream parse cs buffer).chunksRead = cs.length) := by
  constructor
  · intro parse cs buffer n hn
    obtain ⟨vs, t, hshape, htc⟩ := runStream_shape parse cs buffer
    rw [hshape] at hn ⊢
    rw [emittedFragments_shape vs t htc] at hn ⊢
    have h := runSub_cancel_take vs t n ⟨false, [], none⟩ rfl rfl hn
    simpa using h
  · exact fun parse cs buffer hb hcs => runStream_reads_all parse cs buffer hb hcs

/-- C4 (witness): cancelling after the first fragment of the demo error
stream leaves exactly that fragment applied and no terminal signal; and a
two-chunk line-free stream is read to the end. -/
theorem cancellation_no_further_signals_witness :
    (1 ≤ (emittedFragments (runStream parseDemo [c5Chunk] []).acts).length
      ∧ runSub (some 1) (runStream parseDemo [c5Chunk] []).acts ⟨false, [], none⟩
        = ⟨true, [some (Json.str "Why")], none⟩)
    ∧ ('\n' ∉ ("ab".toList : List Char)
      ∧ (runStream parseDemo ["ab".toList, "cd".toList] []).chunksRead = 2) := by
  constructor
  · refine ⟨by decide, ?_⟩
    have h := cancellation_no_further_signals.1 parseDemo [c5Chunk] [] 1 (by decide)
    exact h.trans rfl
  · refine ⟨by decide, ?_⟩
    have h := cancellation_no_further_signals.2 parseDemo ["ab".toList, "cd".toList] []
      (by decide) (by decide)
    exact h.trans rfl

/-- C2 (counterexample): with a prior stream still in flight — one fragment
applied to the bot bubble and no terminal signal seen — `sendMessage` is not
rejected: it appends a new user turn and a new bot turn, growing the log
from 2 to 4 messages, and subscribes to a second stream. -/
theorem busy_rejection_counterexample :
    c2Mid.length = 2
    ∧ (sendMessage c2Mid "again").messages.length = 4
    ∧ (sendMessage c2Mid "again").subscribed.isSome = true :=
  ⟨rfl, rfl, rfl⟩

/-- C2 (amended): `sendMessage` has no single-flight guard: from any log
state, including one whose assistant turn is still streaming, a prompt that
is non-empty after trimming always appends one user turn and one empty bot
turn and opens a new stream; a busy rejection never occurs. -/
theorem sendMessage_no_busy_guard (msgs : List Message) (prompt : String)
    (h : trimString prompt ≠ "") :
    (sendMessage msgs prompt).messages
      = msgs ++ [⟨Origin.user, some (trimString prompt), none⟩, ⟨Origin.bot, some "", none⟩]
    ∧ (sendMessage msgs prompt).subscribed
      = some (streamGenerate (trimString prompt) "gemma:2b")
    ∧ (sendMessage msgs prompt).botIndex = some (msgs.length + 1) := by
  unfold sendMessage
  rw [if_neg h]
  exact ⟨rfl, rfl, rfl⟩

/-- C2 (witness): submitting ` again ` over the mid-stream log appends the
two turns. -/
theorem sendMessage_no_busy_guard_witness :
    trimString " again " ≠ ""
    ∧ (sendMessage c2Mid " again ").messages
      = c2Mid ++ [⟨Origin.user, some "again", none⟩, ⟨Origin.bot, some "", none⟩] := by
  refine ⟨by decide, ?_⟩
  have h := (sendMessage_no_busy_guard c2Mid " again " (by decide)).1
  exact h.trans (by decide)

/-- C3 (counterexample): after the fragment `Why did` was applied, the error
handler leaves the bot turn's text equal to the bare marker, which does not
have the streamed fragment as a prefix — prior content is replaced, not
preserved. -/
theorem error_append_counterexample :
    (onFragment (sendMessage [] "Tell me a joke.").messages 1 (some (Json.str "Why did"))).get? 1
      = some ⟨Origin.bot, some "Why did", none⟩
    ∧ c3Messages.get? 1 = some ⟨Origin.bot, some "⚠️ Http failure", none⟩
    ∧ listStartsWith "Why did".data "⚠️ Http failure".data = false :=
  ⟨rfl, rfl, rfl⟩

/-- C3 (amended): on a decoder error the handler overwrites the streaming
turn's text with `⚠️ ` followed by the error message: the content becomes
exactly that marker, and previously streamed fragments are discarded rather
than preserved as a prefix. -/
theorem stream_error_replaces (msgs : List Message) (i : Nat) (m : Message) (err : String)
    (h : msgs.get? i = some m) :
    onStreamError msgs i err = msgs.set i { m with text := some ("⚠️ " ++ err) } := by
  unfold onStreamError
  rw [h]

/-- C3 (witness): replacing the `Why` bubble at index 0. -/
theorem stream_error_replaces_witness :
    ([⟨Origin.bot, some "Why", none⟩] : List Message).get? 0
      = some ⟨Origin.bot, some "Why", none⟩
    ∧ onStreamError [⟨Origin.bot, some "Why", none⟩] 0 "boom"
      = [⟨Origin.bot, some "⚠️ boom", none⟩] := by
  refine ⟨rfl, ?_⟩
  have h := stream_error_replaces [⟨Origin.bot, some "Why", none⟩] 0
    ⟨Origin.bot, some "Why", none⟩ "boom" rfl
  exact h.trans (by decide)

/-- C7 (counterexample): the parseable line with no `response` field is not a
protocol error: its `undefined` response is emitted as a fragment, the
stream completes normally, and in the full pipeline the bot bubble ends up
holding the text `undefined`. -/
theorem record_validation_counterexample :
    (runStream parseDemo [c7Chunk] []).acts = [PAct.next none, PAct.complete]
    ∧ ((runStream parseDemo [c7Chunk] []).acts.foldl (applyAct 1 "x")
        (sendMessage [] "hi").messages).get? 1
      = some ⟨Origin.bot, some "undefined", none⟩ :=
  ⟨rfl, rfl⟩

/-- C7 (amended): `streamGenerate` validates nothing beyond JSON
well-formedness: every parsed line emits its `response` property as the
fragment — `undefined` when the field is missing — and the stream continues
when `done` is not truthy and terminates when it is; a missing `response` or
non-boolean `done` never surfaces an error. -/
theorem no_record_validation (parse : List Char → Option Json)
    (l suffix : List Char) (cs : List (List Char)) {j : Json}
    (hl : '\n' ∉ l) (ht : trimChars l ≠ []) (hp : parse (trimChars l) = some j) :
    (jsTruthy (j.getField "done") = false →
      ∃ restActs : List PAct,
        (runStream parse ((l ++ '\n' :: suffix) :: cs) []).acts
          = PAct.next (j.getField "response") :: restActs)
    ∧ (jsTruthy (j.getField "done") = true →
      runStream parse ((l ++ '\n' :: suffix) :: cs) []
        = ⟨[PAct.next (j.getField "response"), PAct.complete], 1⟩) := by
  constructor
  · intro hd
    have hdrain := drainBuffer_cont parse l suffix hl ht hp hd
    unfold runStream
    rw [List.nil_append, hdrain]
    cases hA : drainBuffer parse suffix with
    | mk ar st =>
      cases st with
      | some rest => exact ⟨ar ++ (runStream parse cs rest).acts, rfl⟩
      | none => exact ⟨ar, rfl⟩
  · intro hd
    have hdrain := drainBuffer_done parse l suffix hl ht hp hd
    unfold runStream
    rw [List.nil_append, hdrain]

/-- C7 (witness): the record with no `response` field is emitted as the
`undefined` fragment and the stream goes on. -/
theorem no_record_validation_witness :
    parseDemo (trimChars lineNoResp) = some jNoResp
    ∧ jsTruthy (jNoResp.getField "done") = false
    ∧ jNoResp.getField "response" = none
    ∧ (∃ restActs : List PAct,
        (runStream parseDemo ((lineNoResp ++ '\n' :: []) :: []) []).acts
          = PAct.next (jNoResp.getField "response") :: restActs) :=
  ⟨rfl, rfl, rfl,
   (no_record_validation parseDemo lineNoResp [] [] (by decide) (by decide) rfl).1 rfl⟩

/-- C8 (counterexample): `streamGenerate` itself performs no prompt
validation: subscribing with the empty prompt issues the network request
with the empty prompt in its body, and the observer trace holds no
validation error — an empty-body stream just completes. -/
theorem empty_prompt_decoder_counterexample :
    (streamGenerate "" "gemma:2b").request = ⟨"gemma:2b", "", true⟩
    ∧ ((streamGenerate "" "gemma:2b").trace parseDemo []).acts = [PAct.complete] :=
  ⟨rfl, rfl⟩

/-- C8 (amended): a prompt that is empty after trimming makes `sendMessage`
return before touching the log or the network — no turn is appended and no
stream is opened; `streamGenerate`, however, never validates: whatever
prompt reaches it is put in the request body of the `fetch` it issues on
subscription. -/
theorem empty_prompt_no_send (msgs : List Message) (prompt : String)
    (h : trimString prompt = "") :
    sendMessage msgs prompt = ⟨msgs, none, none⟩
    ∧ ∀ q model, (streamGenerate q model).request = ⟨model, q, true⟩ := by
  refine ⟨?_, fun q model => rfl⟩
  unfold sendMessage
  rw [if_pos h]

/-- C8 (witness): a whitespace-only prompt leaves a non-empty log unchanged
and opens nothing. -/
theorem empty_prompt_no_send_witness :
    trimString "   " = ""
    ∧ sendMessage [⟨Origin.user, some "hi", none⟩] "   "
      = ⟨[⟨Origin.user, some "hi", none⟩], none, none⟩ :=
  ⟨rfl, (empty_prompt_no_send [⟨Origin.user, some "hi", none⟩] "   " rfl).1⟩

/-- C10: the per-fragment handler only rewrites the `text` of the message at
`botIndex`: the array length is unchanged, every other index holds exactly
the message it held before, and the target keeps its `from` and `loading`
fields, its text growing by the coerced fragment. -/
theorem fragment_frame (msgs : List Message) (i : Nat) (chunk : Option Json) :
    (onFragment msgs i chunk).length = msgs.length
    ∧ (∀ j, j ≠ i → (onFragment msgs i chunk).get? j = msgs.get? j)
    ∧ (∀ m, msgs.get? i = some m →
        (onFragment msgs i chunk).get? i
          = some ⟨m.from_, some ((m.text.getD "undefined") ++ jsToString chunk),
              m.loading⟩) := by
  unfold onFragment
  cases hm : msgs.get? i with
  | none =>
    exact ⟨rfl, fun j hj => rfl, fun m hm' => Option.noConfusion hm'⟩
  | some m0 =>
    refine ⟨List.length_set msgs i _, ?_, ?_⟩
    · intro j hj
      show (msgs.set i
          ⟨m0.from_, some ((m0.text.getD "undefined") ++ jsToString chunk),
            m0.loading⟩).get? j = msgs.get? j
      exact List.get?_set_ne _ _ (fun hij => hj hij.symm)
    · intro m hm'
      injection hm' with hm'
      subst hm'
      have hlt : i < msgs.length := by
        by_contra hge
        rw [List.get?_eq_none.mpr (Nat.le_of_not_lt hge)] at hm
        cases hm
      exact List.get?_set_eq_of_lt _ hlt

/-- C10 (witness): appending `!` to the bot bubble of the mid-stream demo log
leaves the user message, the length, and the bot bubble's other fields
unchanged. -/
theorem fragment_frame_witness :
    ((0 : Nat) ≠ 1)
    ∧ (onFragment c2Mid 1 (some (Json.str "!"))).get? 0 = c2Mid.get? 0
    ∧ (onFragment c2Mid 1 (some (Json.str "!"))).length = c2Mid.length
    ∧ (onFragment c2Mid 1 (some (Json.str "!"))).get? 1
      = some ⟨Origin.bot, some "par!", none⟩ := by
  have h := fragment_frame c2Mid 1 (some (Json.str "!"))
  refine ⟨by decide, h.2.1 0 (by decide), h.1, ?_⟩
  have h2 := h.2.2 ⟨Origin.bot, some "par", none⟩ rfl
  exact h2.trans (by decide)

end OllamaChat
